import Mathlib

/-!
Verification development for a C open-addressing hash table
(`src/hash_table.c`, `src/prime.c`).

Modelling conventions (shallow embedding):
* C strings (keys/values) are lists of character codes (`List Nat`);
  the claims under study restrict attention to nonnegative codes.
* Machine integers are modelled by `Nat`/`Int` with exact arithmetic;
  the one place where the C program's fixed-width arithmetic genuinely
  diverges from exact arithmetic (the unreduced `pow` term in `ht_hash`)
  is captured separately by `ht_hash_term`.
* The bucket array `ht_item**` is a `List Slot`, where a slot is
  `empty` (NULL pointer), `deleted` (the `&HT_DELETED_ITEM` sentinel) or
  `occupied key value` (a real item).
* The unbounded C `while` loops become fuel-indexed functions returning
  `Option`; `none` means the loop did not finish within the given fuel.
* C integer division (truncation toward zero) is `Int.tdiv`.
-/

/-- A bucket of the table: NULL, the deleted sentinel, or a real item.
Mirrors the three observable states of `ht_item*` in `hash_table.c`. -/
inductive Slot where
  | empty : Slot
  | deleted : Slot
  | occupied (key value : List Nat) : Slot
deriving DecidableEq

/-- The `ht_hash_table` struct of `hash_table.h`: `base_size`, `size`,
`count` (a C `int`, hence `Int`: the code can drive it negative) and the
bucket array. -/
structure HashTable where
  base_size : Nat
  size : Nat
  count : Int
  items : List Slot
deriving DecidableEq

/-- `#define HT_PRIME_1 2423` -/
def HT_PRIME_1 : Nat := 2423

/-- `#define HT_PRIME_2 2287` -/
def HT_PRIME_2 : Nat := 2287

/-- `#define HT_INITIAL_BASE_SIZE 53` -/
def HT_INITIAL_BASE_SIZE : Nat := 53

/-- `is_prime` from `prime.c`: -1 for x<2, 1 for x<4, 0 for even x≥4,
else trial division by the odd numbers `3, 5, …` up to `⌊√x⌋`.  The C
`for` loop is rendered as a bounded search over its iteration count, and
the loop bound `i <= floor(sqrt((double) x))` is rendered as the
equivalent comparison `i * i ≤ x` (equivalent because
`i ≤ ⌊√x⌋ ↔ i·i ≤ x`; this keeps the definition kernel-computable). -/
def is_prime (x : Nat) : Int :=
  if x < 2 then -1
  else if x < 4 then 1
  else if x % 2 = 0 then 0
  else if (List.range x).any
      (fun k => decide ((3 + 2 * k) * (3 + 2 * k) ≤ x) && decide (x % (3 + 2 * k) = 0)) then 0
  else 1

theorem is_prime_of_prime (p : Nat) (hp : p.Prime) : is_prime p = 1 := by
  have h2 : 2 ≤ p := hp.two_le
  unfold is_prime
  split_ifs with h1 h4 hev hany
  · omega
  · rfl
  · exfalso
    have hdvd : 2 ∣ p := Nat.dvd_of_mod_eq_zero hev
    rcases (Nat.Prime.eq_one_or_self_of_dvd hp 2 hdvd) with h | h <;> omega
  · exfalso
    rw [List.any_eq_true] at hany
    obtain ⟨k, _, hk⟩ := hany
    rw [Bool.and_eq_true, decide_eq_true_iff, decide_eq_true_iff] at hk
    obtain ⟨hle, hmod⟩ := hk
    have hdvd : (3 + 2 * k) ∣ p := Nat.dvd_of_mod_eq_zero hmod
    rcases Nat.Prime.eq_one_or_self_of_dvd hp _ hdvd with h | h
    · omega
    · nlinarith
  · rfl

theorem prime_of_is_prime (x : Nat) (h2 : 2 ≤ x) (h : is_prime x = 1) : x.Prime := by
  unfold is_prime at h
  split_ifs at h with h1 h4 hev hany
  all_goals try exact absurd h (by decide)
  · have hx : x = 2 ∨ x = 3 := by omega
    rcases hx with hx | hx
    · exact hx ▸ Nat.prime_two
    · exact hx ▸ Nat.prime_three
  · by_contra hnp
    have hq : (Nat.minFac x).Prime := Nat.minFac_prime (by omega)
    have hqdvd : Nat.minFac x ∣ x := Nat.minFac_dvd x
    have hqsq : Nat.minFac x * Nat.minFac x ≤ x := by
      have hs := Nat.minFac_sq_le_self (by omega) hnp
      rwa [pow_two] at hs
    have hqx : Nat.minFac x ≤ x := Nat.le_of_dvd (by omega) hqdvd
    have hq2 : Nat.minFac x ≠ 2 := by
      intro hc
      exact hev (Nat.mod_eq_zero_of_dvd (hc ▸ hqdvd))
    have hqodd : Nat.minFac x % 2 = 1 := by
      rcases Nat.mod_two_eq_zero_or_one (Nat.minFac x) with hm | hm
      · exact absurd ((Nat.Prime.eq_one_or_self_of_dvd hq 2 (Nat.dvd_of_mod_eq_zero hm)).resolve_left (by omega)).symm hq2
      · exact hm
    have hq3 : 3 ≤ Nat.minFac x := by
      have := hq.two_le
      omega
    rw [Bool.not_eq_true, List.any_eq_false] at hany
    have hmem : (Nat.minFac x - 3) / 2 ∈ List.range x := by
      rw [List.mem_range]
      omega
    have hk := hany _ hmem
    simp only [Bool.and_eq_true, decide_eq_true_iff, not_and] at hk
    have heq : 3 + 2 * ((Nat.minFac x - 3) / 2) = Nat.minFac x := by omega
    exact hk (by rw [heq]; exact hqsq) (by rw [heq]; exact Nat.mod_eq_zero_of_dvd hqdvd)

theorem next_prime_exists (x : Nat) : ∃ n : Nat, is_prime (x + n) = 1 := by
  obtain ⟨p, hxp, hp⟩ := Nat.exists_infinite_primes x
  exact ⟨p - x, by rw [Nat.add_sub_cancel' hxp]; exact is_prime_of_prime p hp⟩

/-- `next_prime` from `prime.c`: increment `x` until `is_prime(x) == 1`,
i.e. the least `y ≥ x` with `is_prime y = 1`. -/
def next_prime (x : Nat) : Nat := x + Nat.find (next_prime_exists x)

theorem is_prime_next_prime (x : Nat) : is_prime (next_prime x) = 1 :=
  Nat.find_spec (next_prime_exists x)

theorem le_next_prime (x : Nat) : x ≤ next_prime x := Nat.le_add_right x _

theorem next_prime_prime (x : Nat) (h : 2 ≤ x) : (next_prime x).Prime :=
  prime_of_is_prime _ (le_trans h (le_next_prime x)) (is_prime_next_prime x)

theorem next_prime_53 : next_prime 53 = 53 := by
  have : Nat.find (next_prime_exists 53) = 0 := by
    rw [Nat.find_eq_zero]
    decide
  rw [next_prime, this]

theorem next_prime_106 : next_prime 106 = 107 := by
  have : Nat.find (next_prime_exists 106) = 1 := by
    rw [Nat.find_eq_iff]
    refine ⟨by decide, ?_⟩
    intro n hn
    interval_cases n
    decide
  rw [next_prime, this]

/-- The loop body accumulator of `ht_hash` in `hash_table.c`:
for each character the code executes
`hash += (long) pow(a, len_s - (i+1)) * s[i]; hash = hash % m;`.
Walking the string left to right, the exponent `len_s - (i+1)` equals the
length of the remaining suffix, so the recursion carries the suffix. -/
def ht_hash_go (a m : Nat) : Nat → List Nat → Nat
  | hash, [] => hash
  | hash, c :: rest => ht_hash_go a m ((hash + a ^ rest.length * c) % m) rest

/-- `ht_hash(s, a, m)` from `hash_table.c`, in exact integer arithmetic:
start from 0 and run the accumulator loop over the characters.  (The C
code computes the power with floating-point `pow` and truncates to
`long`; `ht_hash_term` below records the size of that unreduced term.) -/
def ht_hash (s : List Nat) (a m : Nat) : Nat := ht_hash_go a m 0 s

/-- The unreduced per-step term `(long) pow(a, len_s - (i+1)) * s[i]`
computed by `ht_hash` before the accumulator is reduced modulo `m`. -/
def ht_hash_term (s : List Nat) (a i : Nat) : Nat :=
  a ^ (s.length - (i + 1)) * s.getD i 0

/-- `ht_get_hash(s, num_buckets, attempt)` from `hash_table.c`:
`(hash_a + attempt * (hash_b + 1)) % num_buckets` with
`hash_a = ht_hash(s, HT_PRIME_1, m)` and `hash_b = ht_hash(s, HT_PRIME_2, m)`. -/
def ht_get_hash (s : List Nat) (num_buckets attempt : Nat) : Nat :=
  (ht_hash s HT_PRIME_1 num_buckets + attempt * (ht_hash s HT_PRIME_2 num_buckets + 1))
    % num_buckets

/-- The mathematical base-`a` polynomial value of a string,
`Σ_i s[i] · a^(len-1-i)`, written as a recursion over the string. -/
def ht_poly (a : Nat) : List Nat → Nat
  | [] => 0
  | c :: rest => c * a ^ rest.length + ht_poly a rest

theorem ht_hash_go_eq (a m : Nat) (hm : 0 < m) :
    ∀ (l : List Nat) (h : Nat), h < m → ht_hash_go a m h l = (h + ht_poly a l) % m := by
  intro l
  induction l with
  | nil =>
    intro h hh
    simp [ht_hash_go, ht_poly, Nat.mod_eq_of_lt hh]
  | cons c rest ih =>
    intro h hh
    rw [ht_hash_go, ih _ (Nat.mod_lt _ hm), Nat.mod_add_mod, ht_poly]
    ring_nf

theorem ht_poly_eq_sum (a : Nat) :
    ∀ l : List Nat, ht_poly a l = ∑ i in Finset.range l.length, l.getD i 0 * a ^ (l.length - 1 - i) := by
  intro l
  induction l with
  | nil => simp [ht_poly]
  | cons c rest ih =>
    rw [ht_poly, ih]
    rw [List.length_cons, Finset.sum_range_succ']
    have h0 : (c :: rest).getD 0 0 * a ^ (rest.length + 1 - 1 - 0) = c * a ^ rest.length := by
      simp
    rw [h0, Nat.add_comm]
    congr 1
    refine Finset.sum_congr rfl fun i _ => ?_
    have h1 : (c :: rest).getD (i + 1) 0 = rest.getD i 0 := by simp
    have h2 : rest.length + 1 - 1 - (i + 1) = rest.length - 1 - i := by omega
    rw [h1, h2]

theorem ht_hash_lt (s : List Nat) (a m : Nat) (hm : 0 < m) : ht_hash s a m < m := by
  rw [ht_hash, ht_hash_go_eq a m hm s 0 hm]
  exact Nat.mod_lt _ hm

/-- Claim C8 (amended): in exact integer arithmetic, `ht_hash(s,a,m)`
equals `(Σ_i s[i]·a^(len-1-i)) mod m` and lies in `[0, m)` for every
modulus `m ≥ 1`, the accumulator being reduced modulo `m` after each
step.  (The unreduced per-step power term is treated separately by the
counterexample `c8_overflow_cex`.) -/
theorem c8_hash_formula (s : List Nat) (a m : Nat) (hm : 0 < m) :
    ht_hash s a m = (∑ i in Finset.range s.length, s.getD i 0 * a ^ (s.length - 1 - i)) % m ∧
      ht_hash s a m < m := by
  constructor
  · rw [ht_hash, ht_hash_go_eq a m hm s 0 hm, ht_poly_eq_sum, Nat.zero_add]
  · exact ht_hash_lt s a m hm

theorem c8_hash_formula_witness :
    0 < 53 ∧
      (ht_hash [97, 98] HT_PRIME_1 53 =
          (∑ i in Finset.range ([97, 98] : List Nat).length,
            ([97, 98] : List Nat).getD i 0 * HT_PRIME_1 ^ (([97, 98] : List Nat).length - 1 - i)) % 53 ∧
        ht_hash [97, 98] HT_PRIME_1 53 < 53) :=
  ⟨by decide, c8_hash_formula [97, 98] HT_PRIME_1 53 (by decide)⟩

/-- Claim C8, counterexample to the overflow clause: the claim states
that the per-step intermediate values never overflow on arbitrarily long
strings, but the per-step term `pow(a, len-1-i) * s[i]` is computed
without modular reduction; already for the 20-character string "aaa…a"
(codes 97) with `a = HT_PRIME_1 = 2423`, the term at `i = 0` is
`2423^19 · 97`, which exceeds `2^63 - 1`, the largest value a 64-bit
`long` can hold. -/
theorem c8_overflow_cex :
    2 ^ 63 - 1 < ht_hash_term (List.replicate 20 97) HT_PRIME_1 0 := by
  decide

/-- Claim C10, counterexample: already for the 7-character key
"aaaaaaa" (codes 97) the per-step term the source computes,
`(long) pow(HT_PRIME_1, len-1-i) * s[i]`, is `2423^6 · 97` at `i = 0`,
which exceeds `2^63 - 1`: the value cannot be represented in a 64-bit
`long`, the cast of the unrepresentable `double` is undefined (in
practice the hash goes negative and C's `%` then yields a negative
index), so the program offers no in-bounds guarantee for every key —
the claim's universal quantification over keys fails. -/
theorem c10_overflow_cex :
    2 ^ 63 - 1 < ht_hash_term (List.replicate 7 97) HT_PRIME_1 0 := by
  decide

/-- Claim C10 (amended): for keys of at most 5 characters with ASCII
codes (≤ 127), every per-step term `a^(len-1-i) · s[i]` of both hash
computations is at most `2^53` — so it is exactly representable as a
`double`, the `(long)` cast is exact, and the C computation agrees with
the model — and `ht_get_hash` returns an index in `[0, m)` for every
table size `m ≥ 1` and every attempt; the bucket-array accesses of
`ht_insert`, `ht_search` and `ht_delete` all index `items` with such a
value. -/
theorem c10_probe_in_range_short (s : List Nat) (m attempt : Nat) (hm : 0 < m)
    (hlen : s.length ≤ 5) (hcodes : ∀ c ∈ s, c ≤ 127) :
    (∀ i, ht_hash_term s HT_PRIME_1 i ≤ 2 ^ 53 ∧ ht_hash_term s HT_PRIME_2 i ≤ 2 ^ 53) ∧
      ht_get_hash s m attempt < m := by
  have hterm : ∀ a : Nat, a ≤ 2423 → ∀ i, ht_hash_term s a i ≤ 2 ^ 53 := by
    intro a ha i
    unfold ht_hash_term
    by_cases hi : i < s.length
    · have hcode : s.getD i 0 ≤ 127 := by
        refine hcodes _ ?_
        rw [List.getD_eq_getElem?_getD, List.getElem?_eq_getElem hi]
        exact List.getElem_mem hi
      have hexp : s.length - (i + 1) ≤ 4 := by omega
      have hpow : a ^ (s.length - (i + 1)) ≤ 2423 ^ 4 :=
        le_trans (Nat.pow_le_pow_left ha _) (Nat.pow_le_pow_right (by omega) hexp)
      calc a ^ (s.length - (i + 1)) * s.getD i 0 ≤ 2423 ^ 4 * 127 :=
            Nat.mul_le_mul hpow hcode
        _ ≤ 2 ^ 53 := by decide
    · rw [List.getD_eq_default s 0 (by omega)]
      simp
  refine ⟨fun i => ⟨hterm 2423 (le_refl _) i, hterm 2287 (by omega) i⟩, Nat.mod_lt _ hm⟩

theorem c10_probe_in_range_short_witness :
    0 < 53 ∧ ([97] : List Nat).length ≤ 5 ∧ (∀ c ∈ ([97] : List Nat), c ≤ 127) ∧
      ((∀ i, ht_hash_term [97] HT_PRIME_1 i ≤ 2 ^ 53 ∧ ht_hash_term [97] HT_PRIME_2 i ≤ 2 ^ 53) ∧
        ht_get_hash [97] 53 5 < 53) :=
  ⟨by decide, by decide, by decide,
    c10_probe_in_range_short [97] 53 5 (by decide) (by decide) (by decide)⟩

/-- `ht_new_sized(base_size)` from `hash_table.c`: record the requested
base size, round the actual size up to the next prime, start with
`count = 0` and a bucket array of `size` NULL slots (`xcalloc`). -/
def ht_new_sized (base_size : Nat) : HashTable :=
  { base_size := base_size
    size := next_prime base_size
    count := 0
    items := List.replicate (next_prime base_size) Slot.empty }

/-- `ht_new()`: a table of the initial base size 53. -/
def ht_new : HashTable := ht_new_sized HT_INITIAL_BASE_SIZE

theorem ht_new_eq :
    ht_new =
      { base_size := 53, size := 53, count := 0, items := List.replicate 53 Slot.empty } := by
  unfold ht_new ht_new_sized HT_INITIAL_BASE_SIZE
  rw [next_prime_53]

/-- The load expression `ht->count * 100 / ht->size` computed by
`ht_insert` and `ht_delete`; C `int` division truncates toward zero,
which is `Int.tdiv`. -/
def ht_load (ht : HashTable) : Int := Int.tdiv (ht.count * 100) (ht.size : Int)

/-- The probe walk shared by `ht_insert`'s `while` loop: starting at
`attempt`, follow `ht_get_hash` until the current bucket is NULL or the
deleted sentinel (return its index and `false`: a fresh slot, count will
grow) or an occupied bucket whose key equals the inserted key (return
its index and `true`: overwrite in place).  `none` = the loop did not
finish within `fuel` steps. -/
def findSlot (items : List Slot) (key : List Nat) (size : Nat) : Nat → Nat → Option (Nat × Bool)
  | _, 0 => none
  | attempt, fuel + 1 =>
    match items.getD (ht_get_hash key size attempt) Slot.empty with
    | Slot.empty => some (ht_get_hash key size attempt, false)
    | Slot.deleted => some (ht_get_hash key size attempt, false)
    | Slot.occupied k _ =>
      if k = key then some (ht_get_hash key size attempt, true)
      else findSlot items key size (attempt + 1) fuel

/-- The reinsertion loop of `ht_resize`: walk the old bucket array in
index order and `ht_insert` every occupied item into the accumulating
new table (NULL and deleted slots are skipped). -/
def reinsertWith (ins : HashTable → List Nat → List Nat → Option HashTable) :
    Option HashTable → List Slot → Option HashTable
  | acc, [] => acc
  | acc, Slot.occupied k v :: rest => reinsertWith ins (acc.bind fun t => ins t k v) rest
  | acc, Slot.empty :: rest => reinsertWith ins acc rest
  | acc, Slot.deleted :: rest => reinsertWith ins acc rest

/-- `ht_insert(ht, key, value)` from `hash_table.c`:
1. if `count*100/size > 70`, grow via `ht_resize_up` (i.e. `ht_resize`
   with `base_size * 2`, a no-op when the target is below the minimum);
2. walk the probe sequence until a NULL or deleted bucket (place the new
   item there and increment `count`) or an occupied bucket with equal
   key (overwrite it in place, `count` unchanged).
The first argument is fuel for the unbounded loops and the recursion
through resize. -/
def ht_insert : Nat → HashTable → List Nat → List Nat → Option HashTable
  | 0, _, _, _ => none
  | fuel + 1, ht, key, value =>
    (if 70 < ht_load ht then
        if ht.base_size * 2 < HT_INITIAL_BASE_SIZE then some ht
        else reinsertWith (ht_insert fuel) (some (ht_new_sized (ht.base_size * 2))) ht.items
      else some ht).bind fun ht1 =>
      (findSlot ht1.items key ht1.size 0 (fuel + 1)).map fun r =>
        { ht1 with
          items := ht1.items.set r.1 (Slot.occupied key value)
          count := if r.2 then ht1.count else ht1.count + 1 }

/-- `ht_resize(ht, base_size)` from `hash_table.c`: no-op when
`base_size < HT_INITIAL_BASE_SIZE`; otherwise build a fresh table of the
requested base size, reinsert every occupied item of the old array into
it, and make that the table (the C code swaps fields and frees the
temporary; the surviving contents are exactly the new table's). -/
def ht_resize (fuel : Nat) (ht : HashTable) (base_size : Nat) : Option HashTable :=
  if base_size < HT_INITIAL_BASE_SIZE then some ht
  else reinsertWith (ht_insert fuel) (some (ht_new_sized base_size)) ht.items

/-- `ht_resize_up`: grow to `base_size * 2`. -/
def ht_resize_up (fuel : Nat) (ht : HashTable) : Option HashTable :=
  ht_resize fuel ht (ht.base_size * 2)

/-- `ht_resize_down`: shrink to `base_size / 2`. -/
def ht_resize_down (fuel : Nat) (ht : HashTable) : Option HashTable :=
  ht_resize fuel ht (ht.base_size / 2)

theorem ht_insert_succ (fuel : Nat) (ht : HashTable) (key value : List Nat) :
    ht_insert (fuel + 1) ht key value =
      (if 70 < ht_load ht then ht_resize_up fuel ht else some ht).bind fun ht1 =>
        (findSlot ht1.items key ht1.size 0 (fuel + 1)).map fun r =>
          { ht1 with
            items := ht1.items.set r.1 (Slot.occupied key value)
            count := if r.2 then ht1.count else ht1.count + 1 } := rfl

/-- The `while` loop of `ht_search`: walk the probe sequence; skip the
deleted sentinel; on an occupied bucket with equal key return its value
(`some (some v)`); on NULL report not-found (`some none`). -/
def searchLoop (items : List Slot) (key : List Nat) (size : Nat) :
    Nat → Nat → Option (Option (List Nat))
  | _, 0 => none
  | attempt, fuel + 1 =>
    match items.getD (ht_get_hash key size attempt) Slot.empty with
    | Slot.empty => some none
    | Slot.deleted => searchLoop items key size (attempt + 1) fuel
    | Slot.occupied k v =>
      if k = key then some (some v) else searchLoop items key size (attempt + 1) fuel

/-- `ht_search(ht, key)` from `hash_table.c`. -/
def ht_search (ht : HashTable) (key : List Nat) (fuel : Nat) : Option (Option (List Nat)) :=
  searchLoop ht.items key ht.size 0 fuel

/-- The `while` loop of `ht_delete`: walk the probe sequence until NULL,
replacing every occupied bucket whose key equals `key` by the deleted
sentinel as it goes (the loop does not stop at the first match). -/
def deleteLoop (items : List Slot) (key : List Nat) (size : Nat) :
    Nat → Nat → Option (List Slot)
  | _, 0 => none
  | attempt, fuel + 1 =>
    match items.getD (ht_get_hash key size attempt) Slot.empty with
    | Slot.empty => some items
    | Slot.deleted => deleteLoop items key size (attempt + 1) fuel
    | Slot.occupied k _ =>
      if k = key then
        deleteLoop (items.set (ht_get_hash key size attempt) Slot.deleted) key size
          (attempt + 1) fuel
      else deleteLoop items key size (attempt + 1) fuel

/-- `ht_delete(ht, key)` from `hash_table.c`:
1. if `count*100/size < 10`, shrink via `ht_resize_down` (no-op when the
   halved base size is below the minimum);
2. run the marking walk;
3. decrement `count` — unconditionally, exactly as the C code does
   (`ht->count--;` sits after the loop on every path). -/
def ht_delete (ht : HashTable) (key : List Nat) (fuel : Nat) : Option HashTable :=
  (if ht_load ht < 10 then ht_resize_down fuel ht else some ht).bind fun ht1 =>
    (deleteLoop ht1.items key ht1.size 0 fuel).map fun items1 =>
      { ht1 with items := items1, count := ht1.count - 1 }

/-- A reachable-shape table exhibiting the degenerate probe stride: a
53-slot table holding one item with key "i" (code 105) in slot 52, so
`count = 1 < 53 = size`.  (It arises from a fresh table after
`insert("i", …)`, since `ht_hash("i", a, 53) = 105 % 53 = 52`.) -/
def deg_table : HashTable :=
  { base_size := 53
    size := 53
    count := 1
    items := (List.replicate 53 Slot.empty).set 52 (Slot.occupied [105] [9]) }

/-- Claim C4 is false of the code: for the key "4" (code 52) and the
prime table size m = 53, the probe stride `ht_hash(key,HT_PRIME_2,m)+1`
equals 53 ≡ 0 (mod 53), so the probe sequence is constant (every attempt
yields slot 52) and `ht_insert` of that key into `deg_table` — where
slot 52 is occupied by a different key and `count = 1 < size` — never
terminates, whatever fuel the walk is given. -/
theorem c4_degenerate_stride :
    (ht_hash [52] HT_PRIME_2 53 + 1) % 53 = 0 ∧
      (∀ attempt, ht_get_hash [52] 53 attempt = ht_get_hash [52] 53 0) ∧
      ∀ fuel, ht_insert fuel deg_table [52] [7] = none := by
  have hA : ht_hash [52] HT_PRIME_1 53 = 52 := by decide
  have hB : ht_hash [52] HT_PRIME_2 53 = 52 := by decide
  have hidx : ∀ attempt, ht_get_hash [52] 53 attempt = 52 := by
    intro attempt
    unfold ht_get_hash
    rw [hA, hB]
    omega
  have hfind : ∀ fuel attempt, findSlot deg_table.items [52] 53 attempt fuel = none := by
    intro fuel
    induction fuel with
    | zero => intro _; rfl
    | succ f ih =>
      intro attempt
      have hslot : deg_table.items.getD (ht_get_hash [52] 53 attempt) Slot.empty =
          Slot.occupied [105] [9] := by
        rw [hidx]
        decide
      simp only [findSlot, ih]
      rw [hslot]
      exact if_neg (by decide)
  refine ⟨by decide, fun attempt => by rw [hidx, hidx], ?_⟩
  intro fuel
  cases fuel with
  | zero => rfl
  | succ f =>
    rw [ht_insert_succ]
    have hload : ht_load deg_table = 1 := by decide
    simp only [hload]
    rw [if_neg (by decide), Option.some_bind,
      show deg_table.size = 53 from rfl, hfind (f + 1) 0]
    rfl

/-- The operation sequence of claim C2's failing input, from a fresh
table: insert "a"(97)↦[1]; insert ","(44)↦[2]; delete "a"; insert
","↦[3].  Both keys have primary slot 44 and stride 45 in a 53-slot
table. -/
def c2_trace : Option HashTable :=
  (ht_insert 9 ht_new [97] [1]).bind fun t1 =>
    (ht_insert 9 t1 [44] [2]).bind fun t2 =>
      (ht_delete t2 [97] 9).bind fun t3 =>
        ht_insert 9 t3 [44] [3]

/-- Claim C2 is false of the code: after the reachable sequence
insert "a"; insert ","; delete "a"; insert ",", the bucket array holds
the key "," (code 44) in two distinct Occupied slots, 36 and 44 —
`ht_insert` stopped at the tombstone in slot 44 without walking on to
find the existing match in slot 36. -/
theorem c2_duplicate_keys_bug :
    (c2_trace.map fun t => (t.items.getD 36 Slot.empty, t.items.getD 44 Slot.empty)) =
        some (Slot.occupied [44] [2], Slot.occupied [44] [3]) ∧
      (36 : Nat) ≠ 44 := by
  constructor
  · unfold c2_trace
    rw [ht_new_eq]
    decide
  · decide

/-- Claim C3 is false of the code on absent keys: `ht_delete` executes
`ht->count--;` unconditionally after its walk, so deleting any key from
a fresh (empty) table drives `count` from 0 to -1 instead of leaving it
unchanged. -/
theorem c3_delete_empty_bug :
    ht_new.count = 0 ∧ ((ht_delete ht_new [97] 5).map fun t => t.count) = some (-1) := by
  constructor
  · rw [ht_new_eq]
  · rw [ht_new_eq]
    decide

/-- The operation sequence of claim C6's failing input, from a fresh
table: insert "k"(107)↦[10]; insert "6"(54)↦[20]; delete "k"; insert
"6"↦[30].  Both keys have primary slot 1 and stride 2 in a 53-slot
table, so the second insert of "6" lands on the tombstone in slot 1
while its old copy (value [20]) stays in slot 3. -/
def c6_pre : Option HashTable :=
  (ht_insert 9 ht_new [107] [10]).bind fun t1 =>
    (ht_insert 9 t1 [54] [20]).bind fun t2 =>
      (ht_delete t2 [107] 9).bind fun t3 =>
        ht_insert 9 t3 [54] [30]

/-- The table produced by `c6_pre`, written out. -/
def c6_t4 : HashTable :=
  { base_size := 53
    size := 53
    count := 2
    items :=
      ((List.replicate 53 Slot.empty).set 1 (Slot.occupied [54] [30])).set 3
        (Slot.occupied [54] [20]) }

theorem c6_pre_eq : c6_pre = some c6_t4 := by
  unfold c6_pre c6_t4
  rw [ht_new_eq]
  decide

theorem ht_new_sized_106 :
    ht_new_sized 106 =
      { base_size := 106, size := 107, count := 0, items := List.replicate 107 Slot.empty } := by
  unfold ht_new_sized
  rw [next_prime_106]

/-- Claim C6 is false of the code: after the reachable sequence
insert "k"; insert "6"; delete "k"; insert "6"↦[30] (which leaves the
key "6" duplicated in slots 1 (value [30]) and 3 (stale value [20])),
searching "6" returns [30]; but a resize to base 106 reinserts the stale
slot-3 copy after the slot-1 copy and overwrites it, so the same search
afterwards returns the stale value [20] — a live key is no longer found
with its correct value. -/
theorem c6_resize_value_bug :
    (c6_pre.bind fun t4 => ht_search t4 [54] 5) = some (some [30]) ∧
      (c6_pre.bind fun t4 => (ht_resize 9 t4 106).bind fun t5 => ht_search t5 [54] 5) =
        some (some [20]) ∧
      ([30] : List Nat) ≠ [20] := by
  refine ⟨?_, ?_, by decide⟩
  · rw [c6_pre_eq]
    decide
  · rw [c6_pre_eq, Option.some_bind]
    unfold ht_resize
    rw [if_neg (by decide), ht_new_sized_106]
    decide

theorem getD_set_self {α : Type} (l : List α) (i : Nat) (a d : α) (h : i < l.length) :
    (l.set i a).getD i d = a := by
  rw [List.getD_eq_getElem?_getD, List.getElem?_set_eq_of_lt a h]
  rfl

theorem getD_set_ne {α : Type} (l : List α) (i j : Nat) (a d : α) (h : i ≠ j) :
    (l.set i a).getD j d = l.getD j d := by
  rw [List.getD_eq_getElem?_getD, List.getD_eq_getElem?_getD, List.getElem?_set_ne h]

theorem reinsertWith_wf_aux (ins : HashTable → List Nat → List Nat → Option HashTable)
    (hins : ∀ t k v t', ins t k v = some t' →
      t.items.length = t.size ∧ 0 < t.size → t'.items.length = t'.size ∧ 0 < t'.size) :
    ∀ (l : List Slot) (acc : Option HashTable) (t' : HashTable),
      reinsertWith ins acc l = some t' →
      (∀ t0, acc = some t0 → t0.items.length = t0.size ∧ 0 < t0.size) →
      t'.items.length = t'.size ∧ 0 < t'.size := by
  intro l
  induction l with
  | nil =>
    intro acc t' h hacc
    exact hacc t' h
  | cons s rest ih =>
    intro acc t' h hacc
    cases s with
    | empty => exact ih acc t' h hacc
    | deleted => exact ih acc t' h hacc
    | occupied k v =>
      rw [reinsertWith] at h
      refine ih _ t' h ?_
      intro t0 h0
      obtain ⟨ta, ha, hb⟩ := Option.bind_eq_some.mp h0
      exact hins ta k v t0 hb (hacc ta ha)

theorem ht_insert_wf :
    ∀ (fuel : Nat) (t : HashTable) (k v : List Nat) (t' : HashTable),
      ht_insert fuel t k v = some t' →
      t.items.length = t.size ∧ 0 < t.size → t'.items.length = t'.size ∧ 0 < t'.size := by
  intro fuel
  induction fuel with
  | zero =>
    intro t k v t' h _
    exact absurd h (by simp [ht_insert])
  | succ f ih =>
    intro t k v t' h hwf
    rw [ht_insert] at h
    obtain ⟨t1, h1, h2⟩ := Option.bind_eq_some.mp h
    have hwf1 : t1.items.length = t1.size ∧ 0 < t1.size := by
      by_cases hc : 70 < ht_load t
      · rw [if_pos hc] at h1
        by_cases hb : t.base_size * 2 < HT_INITIAL_BASE_SIZE
        · rw [if_pos hb] at h1
          cases h1
          exact hwf
        · rw [if_neg hb] at h1
          refine reinsertWith_wf_aux (ht_insert f) ih t.items _ t1 h1 ?_
          intro t0 h0
          cases h0
          refine ⟨List.length_replicate _ _, ?_⟩
          have h53 : 53 ≤ t.base_size * 2 := by
            unfold HT_INITIAL_BASE_SIZE at hb
            omega
          have := le_next_prime (t.base_size * 2)
          show 0 < next_prime (t.base_size * 2)
          omega
      · rw [if_neg hc] at h1
        cases h1
        exact hwf
    obtain ⟨r, hfind, ht'⟩ := Option.map_eq_some'.mp h2
    subst ht'
    refine ⟨?_, hwf1.2⟩
    show (t1.items.set r.1 (Slot.occupied k v)).length = t1.size
    rw [List.length_set]
    exact hwf1.1

theorem ht_resize_wf (f : Nat) (t : HashTable) (b : Nat) (t1 : HashTable)
    (h : ht_resize f t b = some t1)
    (hwf : t.items.length = t.size ∧ 0 < t.size) :
    t1.items.length = t1.size ∧ 0 < t1.size := by
  unfold ht_resize at h
  by_cases hb : b < HT_INITIAL_BASE_SIZE
  · rw [if_pos hb] at h
    cases h
    exact hwf
  · rw [if_neg hb] at h
    refine reinsertWith_wf_aux (ht_insert f) (fun t2 k v t2' h2 => ht_insert_wf f t2 k v t2' h2)
      t.items _ t1 h ?_
    intro t0 h0
    cases h0
    refine ⟨List.length_replicate _ _, ?_⟩
    have h53 : 53 ≤ b := by
      unfold HT_INITIAL_BASE_SIZE at hb
      omega
    have := le_next_prime b
    show 0 < next_prime b
    omega

theorem findSlot_sound (items : List Slot) (key : List Nat) (size : Nat) :
    ∀ (fuel attempt idx : Nat) (mb : Bool),
      findSlot items key size attempt fuel = some (idx, mb) →
      ∃ j, attempt ≤ j ∧ idx = ht_get_hash key size j ∧
        (∀ i, attempt ≤ i → i < j →
          ∃ k2 v2, items.getD (ht_get_hash key size i) Slot.empty = Slot.occupied k2 v2 ∧
            k2 ≠ key) ∧
        ((mb = true ∧ ∃ v, items.getD idx Slot.empty = Slot.occupied key v) ∨
          (mb = false ∧
            (items.getD idx Slot.empty = Slot.empty ∨
              items.getD idx Slot.empty = Slot.deleted))) := by
  intro fuel
  induction fuel with
  | zero =>
    intro attempt idx mb h
    exact absurd h (by simp [findSlot])
  | succ f ih =>
    intro attempt idx mb h
    rw [findSlot] at h
    split at h
    next hslot =>
      rw [Option.some_inj, Prod.mk.injEq] at h
      obtain ⟨hidx, hmb⟩ := h
      exact ⟨attempt, le_refl _, hidx.symm, fun i h1 h2 => absurd h2 (by omega),
        Or.inr ⟨hmb.symm, Or.inl (hidx ▸ hslot)⟩⟩
    next hslot =>
      rw [Option.some_inj, Prod.mk.injEq] at h
      obtain ⟨hidx, hmb⟩ := h
      exact ⟨attempt, le_refl _, hidx.symm, fun i h1 h2 => absurd h2 (by omega),
        Or.inr ⟨hmb.symm, Or.inr (hidx ▸ hslot)⟩⟩
    next k0 v0 hslot =>
      by_cases hk : k0 = key
      · rw [if_pos hk] at h
        rw [Option.some_inj, Prod.mk.injEq] at h
        obtain ⟨hidx, hmb⟩ := h
        subst hk
        exact ⟨attempt, le_refl _, hidx.symm, fun i h1 h2 => absurd h2 (by omega),
          Or.inl ⟨hmb.symm, v0, hidx ▸ hslot⟩⟩
      · rw [if_neg hk] at h
        obtain ⟨j, hle, hidx, hpre, hend⟩ := ih (attempt + 1) idx mb h
        refine ⟨j, by omega, hidx, ?_, hend⟩
        intro i h1 h2
        rcases Nat.eq_or_lt_of_le h1 with he | hlt
        · exact ⟨k0, v0, he ▸ hslot, hk⟩
        · exact hpre i hlt h2

theorem searchLoop_found (items : List Slot) (key v : List Nat) (size : Nat) :
    ∀ (d attempt : Nat),
      items.getD (ht_get_hash key size (attempt + d)) Slot.empty = Slot.occupied key v →
      (∀ i, attempt ≤ i → i < attempt + d →
        ∃ k2 v2, items.getD (ht_get_hash key size i) Slot.empty = Slot.occupied k2 v2 ∧
          (k2 = key → v2 = v)) →
      ∃ g, searchLoop items key size attempt g = some (some v) := by
  intro d
  induction d with
  | zero =>
    intro attempt hj _
    rw [Nat.add_zero] at hj
    refine ⟨1, ?_⟩
    rw [searchLoop, hj]
    simp
  | succ d ih =>
    intro attempt hj hpre
    obtain ⟨k2, v2, hsl, hkv⟩ := hpre attempt (le_refl _) (by omega)
    by_cases hk : k2 = key
    · subst hk
      have hv := hkv rfl
      subst hv
      refine ⟨1, ?_⟩
      rw [searchLoop, hsl]
      show (if k2 = k2 then some (some v2) else searchLoop items k2 size (attempt + 1) 0) =
        some (some v2)
      rw [if_pos rfl]
    · have hj2 : items.getD (ht_get_hash key size (attempt + 1 + d)) Slot.empty =
          Slot.occupied key v := by
        have he : attempt + 1 + d = attempt + (d + 1) := by omega
        rw [he]
        exact hj
      have hpre2 : ∀ i, attempt + 1 ≤ i → i < attempt + 1 + d →
          ∃ k2 v2, items.getD (ht_get_hash key size i) Slot.empty = Slot.occupied k2 v2 ∧
            (k2 = key → v2 = v) := fun i h1 h2 => hpre i (by omega) (by omega)
      obtain ⟨g, hg⟩ := ih (attempt + 1) hj2 hpre2
      refine ⟨g + 1, ?_⟩
      rw [searchLoop, hsl]
      show (if k2 = key then some (some v2) else searchLoop items key size (attempt + 1) g) =
        some (some v)
      rw [if_neg hk]
      exact hg

theorem ht_insert_establishes (f : Nat) (t : HashTable) (k v : List Nat) (t' : HashTable)
    (hwf : t.items.length = t.size) (hsz : 0 < t.size)
    (h : ht_insert f t k v = some t') :
    t'.items.length = t'.size ∧ 0 < t'.size ∧
      ∃ j, t'.items.getD (ht_get_hash k t'.size j) Slot.empty = Slot.occupied k v ∧
        ∀ i, i < j →
          ∃ k2 v2, t'.items.getD (ht_get_hash k t'.size i) Slot.empty = Slot.occupied k2 v2 ∧
            (k2 = k → v2 = v) := by
  cases f with
  | zero => exact absurd h (by simp [ht_insert])
  | succ f0 =>
    rw [ht_insert_succ] at h
    obtain ⟨t1, h1, h2⟩ := Option.bind_eq_some.mp h
    have hwf1 : t1.items.length = t1.size ∧ 0 < t1.size := by
      by_cases hc : 70 < ht_load t
      · rw [if_pos hc] at h1
        exact ht_resize_wf f0 t _ t1 h1 ⟨hwf, hsz⟩
      · rw [if_neg hc] at h1
        cases h1
        exact ⟨hwf, hsz⟩
    obtain ⟨r, hfind, ht'⟩ := Option.map_eq_some'.mp h2
    subst ht'
    obtain ⟨j, _, hidx, hpre, _⟩ := findSlot_sound t1.items k t1.size (f0 + 1) 0 r.1 r.2 hfind
    have hidxlt : r.1 < t1.items.length := by
      rw [hwf1.1, hidx]
      exact Nat.mod_lt _ hwf1.2
    refine ⟨by rw [List.length_set]; exact hwf1.1, hwf1.2, j, ?_, ?_⟩
    · show (t1.items.set r.1 (Slot.occupied k v)).getD (ht_get_hash k t1.size j) Slot.empty =
        Slot.occupied k v
      rw [← hidx]
      exact getD_set_self t1.items r.1 _ Slot.empty hidxlt
    · intro i hij
      by_cases he : ht_get_hash k t1.size i = r.1
      · refine ⟨k, v, ?_, fun _ => rfl⟩
        show (t1.items.set r.1 (Slot.occupied k v)).getD (ht_get_hash k t1.size i) Slot.empty =
          Slot.occupied k v
        rw [he]
        exact getD_set_self t1.items r.1 _ Slot.empty hidxlt
      · obtain ⟨k2, v2, hsl, hne⟩ := hpre i (Nat.zero_le i) hij
        refine ⟨k2, v2, ?_, fun hkk => absurd hkk hne⟩
        show (t1.items.set r.1 (Slot.occupied k v)).getD (ht_get_hash k t1.size i) Slot.empty =
          Slot.occupied k2 v2
        rw [getD_set_ne t1.items r.1 _ _ Slot.empty (fun hx => he hx.symm)]
        exact hsl


/-- State reached by insert "a"(97)↦[1]; insert ","(44)↦[2]; delete "a"
from a fresh table: the key "," is present (value [2] in slot 36) with a
tombstone in slot 44, and `count = 1`. -/
def c5_trace1 : Option HashTable :=
  (ht_insert 9 ht_new [97] [1]).bind fun t1 =>
    (ht_insert 9 t1 [44] [2]).bind fun t2 =>
      ht_delete t2 [97] 9

/-- `c5_trace1` followed by the later second insert of ","↦[3]. -/
def c5_trace2 : Option HashTable :=
  c5_trace1.bind fun t3 => ht_insert 9 t3 [44] [3]

/-- Claim C5, counterexample: insert ","↦[2], and later (after
delete "a") insert ","↦[3] again.  The claim says the second insert of
an existing key leaves `count` unchanged, but here `count` goes from 1
to 2: the insert walk stops at the tombstone in slot 44 and adds a
second copy of "," instead of overwriting the live one in slot 36. -/
theorem c5_count_changed_cex :
    (c5_trace1.map fun t => t.count) = some 1 ∧
      (c5_trace2.map fun t => t.count) = some 2 ∧
      (1 : Int) ≠ 2 := by
  refine ⟨?_, ?_, by decide⟩
  · unfold c5_trace1
    rw [ht_new_eq]
    decide
  · unfold c5_trace2 c5_trace1
    rw [ht_new_eq]
    decide

/-- Claim C5 (amended): if the two inserts of the same key are
consecutive (no operations in between) and the second insert does not
trigger a growth resize (load of the intermediate table at most 70),
then the second insert leaves `count` unchanged and `ht_search`
afterwards returns the latest value `v2`. -/
theorem c5_overwrite (t : HashTable) (k v1 v2 : List Nat) (f1 f2 : Nat) (t1 t2 : HashTable)
    (hwf : t.items.length = t.size) (hsz : 0 < t.size)
    (h1 : ht_insert f1 t k v1 = some t1)
    (hload : ¬70 < ht_load t1)
    (h2 : ht_insert f2 t1 k v2 = some t2) :
    t2.count = t1.count ∧ ∃ g, ht_search t2 k g = some (some v2) := by
  obtain ⟨hlen1, hsz1, j, hj, hpre1⟩ := ht_insert_establishes f1 t k v1 t1 hwf hsz h1
  cases f2 with
  | zero => exact absurd h2 (by simp [ht_insert])
  | succ f2p =>
    rw [ht_insert_succ, if_neg hload, Option.some_bind] at h2
    obtain ⟨r, hfind, ht2⟩ := Option.map_eq_some'.mp h2
    obtain ⟨j2, _, hidx, hpre2, hend⟩ :=
      findSlot_sound t1.items k t1.size (f2p + 1) 0 r.1 r.2 hfind
    have hidxlt : r.1 < t1.items.length := by
      rw [hlen1, hidx]
      exact Nat.mod_lt _ hsz1
    have hmb : r.2 = true := by
      rcases hend with ⟨hmb, _⟩ | ⟨hmb, hslot⟩
      · exact hmb
      · exfalso
        rcases Nat.lt_or_ge j j2 with hlt | hge
        · obtain ⟨k2, w2, hsl2, hne⟩ := hpre2 j (Nat.zero_le j) hlt
          have hcomb := hsl2.symm.trans hj
          injection hcomb with hk2 _
          exact hne hk2
        · rcases Nat.lt_or_ge j2 j with hlt2 | hge2
          · obtain ⟨k2, w2, hsl2, _⟩ := hpre1 j2 hlt2
            rw [← hidx] at hsl2
            rcases hslot with hsE | hsD
            · rw [hsE] at hsl2
              exact Slot.noConfusion hsl2
            · rw [hsD] at hsl2
              exact Slot.noConfusion hsl2
          · have hj2eq : j2 = j := by omega
            subst hj2eq
            rw [← hidx] at hj
            rcases hslot with hsE | hsD
            · rw [hsE] at hj
              exact Slot.noConfusion hj
            · rw [hsD] at hj
              exact Slot.noConfusion hj
    subst ht2
    rw [hmb]
    refine ⟨rfl, ?_⟩
    have hj0 : (t1.items.set r.1 (Slot.occupied k v2)).getD (ht_get_hash k t1.size (0 + j2))
        Slot.empty = Slot.occupied k v2 := by
      rw [Nat.zero_add, ← hidx]
      exact getD_set_self t1.items r.1 _ Slot.empty hidxlt
    have hpre0 : ∀ i, 0 ≤ i → i < 0 + j2 →
        ∃ k2 w2, (t1.items.set r.1 (Slot.occupied k v2)).getD (ht_get_hash k t1.size i)
            Slot.empty = Slot.occupied k2 w2 ∧ (k2 = k → w2 = v2) := by
      intro i _ hi
      rw [Nat.zero_add] at hi
      by_cases he : ht_get_hash k t1.size i = r.1
      · refine ⟨k, v2, ?_, fun _ => rfl⟩
        rw [he]
        exact getD_set_self t1.items r.1 _ Slot.empty hidxlt
      · obtain ⟨k2, w2, hsl, hne⟩ := hpre2 i (Nat.zero_le i) hi
        refine ⟨k2, w2, ?_, fun hkk => absurd hkk hne⟩
        rw [getD_set_ne t1.items r.1 _ _ Slot.empty (fun hx => he hx.symm)]
        exact hsl
    exact searchLoop_found (t1.items.set r.1 (Slot.occupied k v2)) k v2 t1.size j2 0 hj0 hpre0

/-- Concrete instance for the overwrite witness: a fresh 53-slot table. -/
def c5_w0 : HashTable :=
  { base_size := 53, size := 53, count := 0, items := List.replicate 53 Slot.empty }

/-- `c5_w0` after inserting "a"(97)↦[5]. -/
def c5_w1 : HashTable :=
  { base_size := 53
    size := 53
    count := 1
    items := (List.replicate 53 Slot.empty).set 44 (Slot.occupied [97] [5]) }

/-- `c5_w1` after inserting "a"(97)↦[6] again: overwritten in place. -/
def c5_w2 : HashTable :=
  { base_size := 53
    size := 53
    count := 1
    items := (List.replicate 53 Slot.empty).set 44 (Slot.occupied [97] [6]) }

theorem c5_overwrite_witness :
    c5_w2.count = c5_w1.count ∧ ∃ g, ht_search c5_w2 [97] g = some (some [6]) :=
  c5_overwrite c5_w0 [97] [5] [6] 3 3 c5_w1 c5_w2 (by decide) (by decide) (by decide)
    (by decide) (by decide)

theorem deleteLoop_sound (key : List Nat) (size : Nat) :
    ∀ (fuel attempt : Nat) (items items2 : List Slot),
      deleteLoop items key size attempt fuel = some items2 →
      items.length = size → 0 < size →
      ∃ j, attempt ≤ j ∧
        items.getD (ht_get_hash key size j) Slot.empty = Slot.empty ∧
        (∀ i, attempt ≤ i → i < j →
          items.getD (ht_get_hash key size i) Slot.empty ≠ Slot.empty) ∧
        ∀ idx,
          ((∃ i, attempt ≤ i ∧ i < j ∧ ht_get_hash key size i = idx ∧
              ∃ v, items.getD idx Slot.empty = Slot.occupied key v) →
            items2.getD idx Slot.empty = Slot.deleted) ∧
          (¬(∃ i, attempt ≤ i ∧ i < j ∧ ht_get_hash key size i = idx ∧
              ∃ v, items.getD idx Slot.empty = Slot.occupied key v) →
            items2.getD idx Slot.empty = items.getD idx Slot.empty) := by
  intro fuel
  induction fuel with
  | zero =>
    intro attempt items items2 h
    exact absurd h (by simp [deleteLoop])
  | succ f ih =>
    intro attempt items items2 h hlen hsz
    rw [deleteLoop] at h
    split at h
    next hslot =>
      rw [Option.some_inj] at h
      subst h
      refine ⟨attempt, le_refl _, hslot, fun i h1 h2 => absurd h2 (by omega), ?_⟩
      intro idx
      constructor
      · rintro ⟨i, h1, h2, _, _⟩
        omega
      · intro _
        rfl
    next hslot =>
      obtain ⟨j, hle, hempty, hne, hchar⟩ := ih (attempt + 1) items items2 h hlen hsz
      refine ⟨j, by omega, hempty, ?_, ?_⟩
      · intro i h1 h2 hc
        rcases Nat.eq_or_lt_of_le h1 with he | hlt
        · rw [← he, hslot] at hc
          exact Slot.noConfusion hc
        · exact hne i hlt h2 hc
      · intro idx
        have hch := hchar idx
        constructor
        · rintro ⟨i, h1, h2, hpi, v, hv⟩
          rcases Nat.eq_or_lt_of_le h1 with he | hlt
          · exfalso
            rw [← he] at hpi
            rw [← hpi, hslot] at hv
            exact Slot.noConfusion hv
          · exact hch.1 ⟨i, hlt, h2, hpi, v, hv⟩
        · intro hn
          exact hch.2 fun hx => by
            obtain ⟨i, h1, h2, hpi, hv⟩ := hx
            exact hn ⟨i, by omega, h2, hpi, hv⟩
    next k0 v0 hslot =>
      split at h
      next hk =>
        subst hk
        obtain ⟨j, hle, hempty, hne, hchar⟩ :=
          ih (attempt + 1) (items.set (ht_get_hash k0 size attempt) Slot.deleted) items2 h
            (by rw [List.length_set]; exact hlen) hsz
        have hidxlt : ht_get_hash k0 size attempt < items.length := by
          rw [hlen]
          exact Nat.mod_lt _ hsz
        have hjne : ht_get_hash k0 size j ≠ ht_get_hash k0 size attempt := by
          intro hc
          rw [hc, getD_set_self _ _ _ _ hidxlt] at hempty
          exact Slot.noConfusion hempty
        have hempty2 : items.getD (ht_get_hash k0 size j) Slot.empty = Slot.empty := by
          rw [getD_set_ne _ _ _ _ _ (fun hx => hjne hx.symm)] at hempty
          exact hempty
        refine ⟨j, by omega, hempty2, ?_, ?_⟩
        · intro i h1 h2 hc
          rcases Nat.eq_or_lt_of_le h1 with he | hlt
          · rw [← he, hslot] at hc
            exact Slot.noConfusion hc
          · by_cases hpe : ht_get_hash k0 size i = ht_get_hash k0 size attempt
            · rw [hpe, hslot] at hc
              exact Slot.noConfusion hc
            · apply hne i hlt h2
              rw [getD_set_ne _ _ _ _ _ (fun hx => hpe hx.symm)]
              exact hc
        · intro idx
          have hch := hchar idx
          by_cases hidx_eq : idx = ht_get_hash k0 size attempt
          · constructor
            · intro _
              have hcond2 : ¬(∃ i, attempt + 1 ≤ i ∧ i < j ∧ ht_get_hash k0 size i = idx ∧
                  ∃ v, (items.set (ht_get_hash k0 size attempt) Slot.deleted).getD idx
                    Slot.empty = Slot.occupied k0 v) := by
                rintro ⟨i, _, _, _, v, hv⟩
                rw [hidx_eq, getD_set_self _ _ _ _ hidxlt] at hv
                exact Slot.noConfusion hv
              rw [hch.2 hcond2, hidx_eq]
              exact getD_set_self _ _ _ _ hidxlt
            · intro hn
              exfalso
              apply hn
              exact ⟨attempt, le_refl _, by omega, hidx_eq.symm, v0, by
                rw [hidx_eq]
                exact hslot⟩
          · have hsame : (items.set (ht_get_hash k0 size attempt) Slot.deleted).getD idx
                Slot.empty = items.getD idx Slot.empty :=
              getD_set_ne _ _ _ _ _ (fun hx => hidx_eq hx.symm)
            constructor
            · rintro ⟨i, h1, h2, hpi, v, hv⟩
              rcases Nat.eq_or_lt_of_le h1 with he | hlt
              · exfalso
                apply hidx_eq
                rw [← hpi, ← he]
              · exact hch.1 ⟨i, hlt, h2, hpi, v, by
                  rw [hsame]
                  exact hv⟩
            · intro hn
              rw [hch.2 ?_, hsame]
              rintro ⟨i, h1, h2, hpi, v, hv⟩
              apply hn
              refine ⟨i, by omega, h2, hpi, v, ?_⟩
              rw [← hsame]
              exact hv
      next hk =>
        obtain ⟨j, hle, hempty, hne, hchar⟩ := ih (attempt + 1) items items2 h hlen hsz
        refine ⟨j, by omega, hempty, ?_, ?_⟩
        · intro i h1 h2 hc
          rcases Nat.eq_or_lt_of_le h1 with he | hlt
          · rw [← he, hslot] at hc
            exact Slot.noConfusion hc
          · exact hne i hlt h2 hc
        · intro idx
          have hch := hchar idx
          constructor
          · rintro ⟨i, h1, h2, hpi, v, hv⟩
            rcases Nat.eq_or_lt_of_le h1 with he | hlt
            · exfalso
              rw [← he] at hpi
              rw [← hpi, hslot] at hv
              injection hv with hkk _
              exact hk hkk
            · exact hch.1 ⟨i, hlt, h2, hpi, v, hv⟩
          · intro hn
            exact hch.2 fun hx => by
              obtain ⟨i, h1, h2, hpi, hv⟩ := hx
              exact hn ⟨i, by omega, h2, hpi, hv⟩

/-- Claim C9: when the shrink check does not fire, `ht_delete`'s walk
runs until the first Empty slot on the probe sequence of `key`; every
Occupied slot holding `key` that the walk visits before that Empty slot
(duplicates included) is replaced by the Deleted sentinel, every other
bucket is left unchanged, and `count` drops by exactly one. -/
theorem c9_delete_marks_all (t : HashTable) (key : List Nat) (f : Nat) (t' : HashTable)
    (hload : ¬ht_load t < 10)
    (hlen : t.items.length = t.size) (hsz : 0 < t.size)
    (h : ht_delete t key f = some t') :
    t'.count = t.count - 1 ∧
      ∃ j, t.items.getD (ht_get_hash key t.size j) Slot.empty = Slot.empty ∧
        (∀ i, i < j → t.items.getD (ht_get_hash key t.size i) Slot.empty ≠ Slot.empty) ∧
        ∀ idx,
          ((∃ i, i < j ∧ ht_get_hash key t.size i = idx ∧
              ∃ v, t.items.getD idx Slot.empty = Slot.occupied key v) →
            t'.items.getD idx Slot.empty = Slot.deleted) ∧
          (¬(∃ i, i < j ∧ ht_get_hash key t.size i = idx ∧
              ∃ v, t.items.getD idx Slot.empty = Slot.occupied key v) →
            t'.items.getD idx Slot.empty = t.items.getD idx Slot.empty) := by
  unfold ht_delete at h
  rw [if_neg hload, Option.some_bind] at h
  obtain ⟨items2, hdel, ht'⟩ := Option.map_eq_some'.mp h
  subst ht'
  obtain ⟨j, _, hempty, hne, hchar⟩ :=
    deleteLoop_sound key t.size f 0 t.items items2 hdel hlen hsz
  refine ⟨rfl, j, hempty, fun i hi => hne i (Nat.zero_le i) hi, ?_⟩
  intro idx
  have hch := hchar idx
  constructor
  · rintro ⟨i, h2, hpi, hv⟩
    exact hch.1 ⟨i, Nat.zero_le i, h2, hpi, hv⟩
  · intro hn
    exact hch.2 fun hx => by
      obtain ⟨i, _, h2, hpi, hv⟩ := hx
      exact hn ⟨i, h2, hpi, hv⟩

/-- A 53-slot table holding the key "6"(54) twice — in slot 1 (value
[30]) and slot 3 (value [20]) — with `count = 6` so the shrink check
does not fire (load 11 ≥ 10). -/
def c9_t : HashTable :=
  { base_size := 53
    size := 53
    count := 6
    items :=
      ((List.replicate 53 Slot.empty).set 1 (Slot.occupied [54] [30])).set 3
        (Slot.occupied [54] [20]) }

/-- `c9_t` after `ht_delete` of "6": both duplicate copies are gone. -/
def c9_t2 : HashTable :=
  { base_size := 53
    size := 53
    count := 5
    items := ((List.replicate 53 Slot.empty).set 1 Slot.deleted).set 3 Slot.deleted }

theorem c9_delete_marks_all_witness :
    c9_t2.count = c9_t.count - 1 ∧
      ∃ j, c9_t.items.getD (ht_get_hash [54] c9_t.size j) Slot.empty = Slot.empty ∧
        (∀ i, i < j → c9_t.items.getD (ht_get_hash [54] c9_t.size i) Slot.empty ≠ Slot.empty) ∧
        ∀ idx,
          ((∃ i, i < j ∧ ht_get_hash [54] c9_t.size i = idx ∧
              ∃ v, c9_t.items.getD idx Slot.empty = Slot.occupied [54] v) →
            c9_t2.items.getD idx Slot.empty = Slot.deleted) ∧
          (¬(∃ i, i < j ∧ ht_get_hash [54] c9_t.size i = idx ∧
              ∃ v, c9_t.items.getD idx Slot.empty = Slot.occupied [54] v) →
            c9_t2.items.getD idx Slot.empty = c9_t.items.getD idx Slot.empty) :=
  c9_delete_marks_all c9_t [54] 4 c9_t2 (by decide) (by decide) (by decide) (by decide)

theorem reinsertWith_preserves (P : HashTable → Prop)
    (ins : HashTable → List Nat → List Nat → Option HashTable)
    (hins : ∀ t k v t', ins t k v = some t' → P t → P t') :
    ∀ (l : List Slot) (acc : Option HashTable) (t' : HashTable),
      reinsertWith ins acc l = some t' → (∀ t0, acc = some t0 → P t0) → P t' := by
  intro l
  induction l with
  | nil =>
    intro acc t' h hacc
    exact hacc t' h
  | cons s rest ih =>
    intro acc t' h hacc
    cases s with
    | empty => exact ih acc t' h hacc
    | deleted => exact ih acc t' h hacc
    | occupied k v =>
      rw [reinsertWith] at h
      refine ih _ t' h ?_
      intro t0 h0
      obtain ⟨ta, ha, hb⟩ := Option.bind_eq_some.mp h0
      exact hins ta k v t0 hb (hacc ta ha)

theorem ht_insert_sinv :
    ∀ (fuel : Nat) (t : HashTable) (k v : List Nat) (t' : HashTable),
      ht_insert fuel t k v = some t' →
      53 ≤ t.base_size ∧ t.size = next_prime t.base_size →
      53 ≤ t'.base_size ∧ t'.size = next_prime t'.base_size := by
  intro fuel
  induction fuel with
  | zero =>
    intro t k v t' h _
    exact absurd h (by simp [ht_insert])
  | succ f ih =>
    intro t k v t' h hs
    rw [ht_insert] at h
    obtain ⟨t1, h1, h2⟩ := Option.bind_eq_some.mp h
    have hs1 : 53 ≤ t1.base_size ∧ t1.size = next_prime t1.base_size := by
      by_cases hc : 70 < ht_load t
      · rw [if_pos hc] at h1
        by_cases hb : t.base_size * 2 < HT_INITIAL_BASE_SIZE
        · rw [if_pos hb] at h1
          cases h1
          exact hs
        · rw [if_neg hb] at h1
          refine reinsertWith_preserves _ (ht_insert f) ih t.items _ t1 h1 ?_
          intro t0 h0
          cases h0
          refine ⟨?_, rfl⟩
          unfold HT_INITIAL_BASE_SIZE at hb
          show 53 ≤ t.base_size * 2
          omega
      · rw [if_neg hc] at h1
        cases h1
        exact hs
    obtain ⟨r, _, ht'⟩ := Option.map_eq_some'.mp h2
    subst ht'
    exact hs1

theorem ht_resize_sinv (f : Nat) (t : HashTable) (b : Nat) (t1 : HashTable)
    (h : ht_resize f t b = some t1)
    (hs : 53 ≤ t.base_size ∧ t.size = next_prime t.base_size) :
    53 ≤ t1.base_size ∧ t1.size = next_prime t1.base_size := by
  unfold ht_resize at h
  by_cases hb : b < HT_INITIAL_BASE_SIZE
  · rw [if_pos hb] at h
    cases h
    exact hs
  · rw [if_neg hb] at h
    refine reinsertWith_preserves _ (ht_insert f)
      (fun t2 k v t2' h2 => ht_insert_sinv f t2 k v t2' h2) t.items _ t1 h ?_
    intro t0 h0
    cases h0
    refine ⟨?_, rfl⟩
    unfold HT_INITIAL_BASE_SIZE at hb
    show 53 ≤ b
    omega

theorem ht_delete_sinv (t : HashTable) (key : List Nat) (f : Nat) (t' : HashTable)
    (h : ht_delete t key f = some t')
    (hs : 53 ≤ t.base_size ∧ t.size = next_prime t.base_size) :
    53 ≤ t'.base_size ∧ t'.size = next_prime t'.base_size := by
  unfold ht_delete at h
  obtain ⟨t1, h1, h2⟩ := Option.bind_eq_some.mp h
  have hs1 : 53 ≤ t1.base_size ∧ t1.size = next_prime t1.base_size := by
    by_cases hc : ht_load t < 10
    · rw [if_pos hc] at h1
      exact ht_resize_sinv f t _ t1 h1 hs
    · rw [if_neg hc] at h1
      cases h1
      exact hs
  obtain ⟨items2, _, ht'⟩ := Option.map_eq_some'.mp h2
  subst ht'
  exact hs1

/-- The table states reachable from `ht_new()` by sequences of the
public mutating operations `ht_insert` and `ht_delete` (each of which
may internally resize), with any fuel for which they complete. -/
inductive Reachable : HashTable → Prop where
  | new : Reachable ht_new
  | insert (t t' : HashTable) (f : Nat) (k v : List Nat) :
      Reachable t → ht_insert f t k v = some t' → Reachable t'
  | del (t t' : HashTable) (f : Nat) (k : List Nat) :
      Reachable t → ht_delete t k f = some t' → Reachable t'

theorem reachable_sinv (t : HashTable) (h : Reachable t) :
    53 ≤ t.base_size ∧ t.size = next_prime t.base_size := by
  induction h with
  | new =>
    rw [ht_new_eq]
    exact ⟨le_refl 53, next_prime_53.symm⟩
  | insert t t' f k v _ hi ih => exact ht_insert_sinv f t k v t' hi ih
  | del t t' f k _ hd ih => exact ht_delete_sinv t k f t' hd ih


theorem deleteLoop_length (key : List Nat) (size : Nat) :
    ∀ (fuel attempt : Nat) (items items2 : List Slot),
      deleteLoop items key size attempt fuel = some items2 →
      items2.length = items.length := by
  intro fuel
  induction fuel with
  | zero =>
    intro a items items2 h
    exact absurd h (by simp [deleteLoop])
  | succ f ih =>
    intro a items items2 h
    rw [deleteLoop] at h
    split at h
    next =>
      rw [Option.some_inj] at h
      subst h
      rfl
    next => exact ih _ _ _ h
    next k0 v0 hslot =>
      split at h
      next =>
        have hl := ih _ _ _ h
        rw [hl, List.length_set]
      next => exact ih _ _ _ h

theorem ht_delete_wf (t : HashTable) (key : List Nat) (f : Nat) (t' : HashTable)
    (h : ht_delete t key f = some t')
    (hwf : t.items.length = t.size ∧ 0 < t.size) :
    t'.items.length = t'.size ∧ 0 < t'.size := by
  unfold ht_delete at h
  obtain ⟨t1, h1, h2⟩ := Option.bind_eq_some.mp h
  have hwf1 : t1.items.length = t1.size ∧ 0 < t1.size := by
    by_cases hc : ht_load t < 10
    · rw [if_pos hc] at h1
      exact ht_resize_wf f t _ t1 h1 hwf
    · rw [if_neg hc] at h1
      cases h1
      exact hwf
  obtain ⟨items2, hdel, ht'⟩ := Option.map_eq_some'.mp h2
  subst ht'
  refine ⟨?_, hwf1.2⟩
  show items2.length = t1.size
  rw [deleteLoop_length key t1.size f 0 t1.items items2 hdel]
  exact hwf1.1

theorem reachable_wf (t : HashTable) (h : Reachable t) :
    t.items.length = t.size ∧ 0 < t.size := by
  induction h with
  | new =>
    rw [ht_new_eq]
    exact ⟨List.length_replicate _ _, by decide⟩
  | insert t t' f k v _ hi ih => exact ht_insert_wf f t k v t' hi ih
  | del t t' f k _ hd ih => exact ht_delete_wf t k f t' hd ih


/-- Claim C1: from any reachable table state, if `ht_insert(t,k,v)`
completes and yields `t'`, then `ht_search(t',k)` completes and returns
`v`. -/
theorem c1_round_trip (t : HashTable) (k v : List Nat) (f : Nat) (t' : HashTable)
    (hr : Reachable t) (h : ht_insert f t k v = some t') :
    ∃ g, ht_search t' k g = some (some v) := by
  obtain ⟨hwf, hsz⟩ := reachable_wf t hr
  obtain ⟨hlen2, hsz2, j, hj, hpre⟩ := ht_insert_establishes f t k v t' hwf hsz h
  have hj0 : t'.items.getD (ht_get_hash k t'.size (0 + j)) Slot.empty = Slot.occupied k v := by
    rw [Nat.zero_add]
    exact hj
  have hpre0 : ∀ i, 0 ≤ i → i < 0 + j →
      ∃ k2 v2, t'.items.getD (ht_get_hash k t'.size i) Slot.empty = Slot.occupied k2 v2 ∧
        (k2 = k → v2 = v) := by
    intro i _ hi
    exact hpre i (by omega)
  exact searchLoop_found t'.items k v t'.size j 0 hj0 hpre0

/-- The fresh table written out, for the round-trip witness. -/
def c1_t0 : HashTable :=
  { base_size := 53, size := 53, count := 0, items := List.replicate 53 Slot.empty }

/-- The table after inserting "a"(97)↦[5] into `c1_t0`. -/
def c1_t1 : HashTable :=
  { base_size := 53
    size := 53
    count := 1
    items := (List.replicate 53 Slot.empty).set 44 (Slot.occupied [97] [5]) }

theorem c1_round_trip_witness : ∃ g, ht_search c1_t1 [97] g = some (some [5]) :=
  c1_round_trip c1_t0 [97] [5] 3 c1_t1 ((show ht_new = c1_t0 from ht_new_eq) ▸ Reachable.new)
    (by decide)

/-- Claim C7: in every reachable table state — after creation and any
sequence of insert/delete operations, including all resizes — the
`size` field is prime and at least the configured minimum 53. -/
theorem c7_size_prime (t : HashTable) (h : Reachable t) :
    Nat.Prime t.size ∧ 53 ≤ t.size := by
  obtain ⟨hb, hsz⟩ := reachable_sinv t h
  constructor
  · rw [hsz]
    exact next_prime_prime _ (by omega)
  · rw [hsz]
    have := le_next_prime t.base_size
    omega

theorem c7_size_prime_witness : Nat.Prime ht_new.size ∧ 53 ≤ ht_new.size :=
  c7_size_prime ht_new Reachable.new
